import Mathlib

/-!
Shallow embedding of the py-radiosity notebook (src/Radiosity.ipynb).

The notebook's numeric code runs on NumPy float arrays; the embedding models the
arithmetic exactly over the rationals.  Square roots and pi, which are irrational,
are handled as follows:
* edge-length comparisons of the refiner are translated to the exactly equivalent
  comparison of squared lengths (with the sign of the bound treated separately);
* the form-factor scene carries the centroid distances (the float norms) and the
  constant pi as data, constrained by hypotheses where a theorem needs them.
External library calls (scipy.spatial.Delaunay, trimesh's ray intersector) are
oracles: the corresponding functions are parameters of the embedding, with any
assumed behaviour stated as an explicit hypothesis of the theorem using it.
-/

/- ===================== Radiosity solver (solver cell) ===================== -/

/-- Per-patch per-channel arrays: N patches, C color channels, as used for the
rho, E and B arrays of the solver cell. -/
abbrev RMat (N C : ℕ) := Fin N → Fin C → ℚ

/-- incoming_light = F_sparse @ B: for patch i and channel c, the sum over j of
F[i,j] * B[j,c].  The csr_matrix product of the source computes exactly this sum. -/
def incoming {N C : ℕ} (F : Fin N → Fin N → ℚ) (B : RMat N C) : RMat N C :=
  fun i c => ∑ j, F i j * B j c

/-- One body of the solver loop: B = E + rho * incoming_light (elementwise). -/
def radStep {N C : ℕ} (F : Fin N → Fin N → ℚ) (rho E B : RMat N C) : RMat N C :=
  fun i c => E i c + rho i c * incoming F B i c

/-- The k-th iterate of the loop body, starting from B = np.zeros_like(E). -/
def iterB {N C : ℕ} (F : Fin N → Fin N → ℚ) (rho E : RMat N C) : ℕ → RMat N C
  | 0 => fun _ _ => 0
  | k + 1 => radStep F rho E (iterB F rho E k)

/-- The solver cell: B = np.zeros_like(E); for i in range(num_iterations):
B = E + rho * (F_sparse @ B).  The budget is a Python int and range(n) is empty
for n ≤ 0; the loop performs no convergence test and cannot raise. -/
def radiositySolve {N C : ℕ} (F : Fin N → Fin N → ℚ) (rho E : RMat N C) (n : ℤ) :
    RMat N C :=
  (List.range n.toNat).foldl (fun B _ => radStep F rho E B) (fun _ _ => 0)

/- ===================== Patch refiner (splitViaDelaunay) ===================== -/

/-- A projected 2D point, as produced by project_triangle_2D. -/
abbrev P2 := ℚ × ℚ

/-- Squared distance between two 2D points; the source compares
sqrt((x2-x1)^2 + (y2-y1)^2) against maxLength. -/
def dist2 (p q : P2) : ℚ := (q.1 - p.1) ^ 2 + (q.2 - p.2) ^ 2

/-- The source's test length > maxLength, in exact arithmetic: the float sqrt
is nonnegative, so for maxLength < 0 the test always holds, and otherwise it is
equivalent to d2 > maxLength^2. -/
def lengthExceeds (d2 m : ℚ) : Bool := decide (m < 0) || decide (m ^ 2 < d2)

/-- nPieces = ceil(length / maxLength) of the source, for maxLength > 0: the least
k with length ≤ k * maxLength, i.e. with d2 ≤ (k * maxLength)^2 in exact
arithmetic.  For maxLength < 0 the source's ceil is nonpositive and the piece
loop range(1, nPieces) is empty, so any nonpositive value is behaviour-equivalent
and 0 is used; maxLength = 0 raises ZeroDivisionError in the source, and the
value 0 (no pieces, hence no appended points) marks that branch here. -/
def nPieces (d2 m : ℚ) : ℕ :=
  if h : 0 < m then
    Nat.find (p := fun k => d2 ≤ ((k : ℚ) * m) ^ 2)
      (by
        obtain ⟨k, hk⟩ := exists_nat_ge (max ((d2 + 1) / m) (1 / m))
        refine ⟨k, ?_⟩
        have hk1 : (d2 + 1) / m ≤ (k : ℚ) := le_trans (le_max_left _ _) hk
        have hk2 : 1 / m ≤ (k : ℚ) := le_trans (le_max_right _ _) hk
        have h1 : d2 + 1 ≤ (k : ℚ) * m := by
          have := mul_le_mul_of_nonneg_right hk1 h.le
          rwa [div_mul_cancel₀ _ (ne_of_gt h)] at this
        have h2 : 1 ≤ (k : ℚ) * m := by
          have := mul_le_mul_of_nonneg_right hk2 h.le
          rwa [div_mul_cancel₀ _ (ne_of_gt h)] at this
        nlinarith)
  else 0

/-- The point x1 + t*(x2-x1), y1 + t*(y2-y1) appended by the splitting loop,
with t = piece/nPieces. -/
def segPoint (a b : P2) (t : ℚ) : P2 :=
  (a.1 + t * (b.1 - a.1), a.2 + t * (b.2 - a.2))

/-- points.append([x1 + piece/nPieces*(x2-x1), y1 + piece/nPieces*(y2-y1)])
for piece in range(1, int(nPieces)). -/
def edgeNewPoints (p1 p2 : P2) (m : ℚ) : List P2 :=
  ((List.range (nPieces (dist2 p1 p2) m)).drop 1).map
    (fun piece : ℕ => segPoint p1 p2 ((piece : ℚ) / (nPieces (dist2 p1 p2) m : ℚ)))

/-- The three index pairs the source adds to the edge set for one simplex:
(s0, s1), (s1, s2), (s0, s2). -/
def simplexEdges (s : ℕ × ℕ × ℕ) : List (ℕ × ℕ) :=
  [(s.1, s.2.1), (s.2.1, s.2.2), (s.1, s.2.2)]

/-- The edge set collected over tri.simplices.  The source accumulates into a
Python set; dedup models the set semantics (iteration order of a Python set is
unspecified, and no theorem below depends on the order). -/
def triEdges (ss : List (ℕ × ℕ × ℕ)) : List (ℕ × ℕ) :=
  ((ss.map simplexEdges).flatten).dedup

/-- One edge of the splitting scan: if the edge is too long, mark the pass
unfinished and record the interior points appended along it. -/
def splitStep (pts : List P2) (m : ℚ) (acc : List P2 × Bool) (e : ℕ × ℕ) :
    List P2 × Bool :=
  if lengthExceeds (dist2 (pts.getD e.1 (0, 0)) (pts.getD e.2 (0, 0))) m then
    (acc.1 ++ edgeNewPoints (pts.getD e.1 (0, 0)) (pts.getD e.2 (0, 0)) m, false)
  else acc

/-- One body of splitViaDelaunay: triangulate, scan the edge set, and return the
points appended in this pass together with the isFinished flag.  The source
appends to the same Python list it later recurses on; returning the appended
suffix separately is the same mutation made explicit. -/
def splitPass (tri : List P2 → List (ℕ × ℕ × ℕ)) (pts : List P2) (m : ℚ) :
    List P2 × Bool :=
  (triEdges (tri pts)).foldl (splitStep pts m) ([], true)

/-- splitViaDelaunay with explicit recursion fuel: the source recurses until a
pass reports finished (none models a run that does not finish within the given
fuel, including the source's unbounded recursion).  It is parametric in the
external scipy.spatial.Delaunay triangulation tri. -/
def splitViaDelaunay (tri : List P2 → List (ℕ × ℕ × ℕ)) :
    ℕ → List P2 → ℚ → Option (List P2)
  | 0, _, _ => none
  | fuel + 1, pts, m =>
    if (splitPass tri pts m).2 then some pts
    else splitViaDelaunay tri fuel (pts ++ (splitPass tri pts m).1) m

/-- One output triangle of subdivide_triangles: points[x], points[y], points[z]
for a simplex (x, y, z) of the final triangulation. -/
def toTriangle (pts : List P2) (s : ℕ × ℕ × ℕ) : P2 × P2 × P2 :=
  (pts.getD s.1 (0, 0), pts.getD s.2.1 (0, 0), pts.getD s.2.2 (0, 0))

/-- The 2D core of subdivide_triangles for one projected triangle: run
splitViaDelaunay on the list [v0_2d, v1_2d, v2_2d], triangulate the final point
list once more, and read off the triangles.  The source then maps each 2D point
back to 3D through the orthonormal frame (origin, u, v) of project_triangle_2D,
an isometry, so edge lengths and areas of the output equal those of these 2D
triangles. -/
def subdivide2D (tri : List P2 → List (ℕ × ℕ × ℕ)) (fuel : ℕ) (p0 p1 p2 : P2)
    (m : ℚ) : Option (List (P2 × P2 × P2)) :=
  (splitViaDelaunay tri fuel [p0, p1, p2] m).map
    (fun pts => (tri pts).map (toTriangle pts))

/-- Unsigned triangle area in the 2D chart: half the absolute cross product. -/
def triArea2 (a b c : P2) : ℚ :=
  |(b.1 - a.1) * (c.2 - a.2) - (b.2 - a.2) * (c.1 - a.1)| / 2

/-- Total area of a list of triangles. -/
def areaSum (ts : List (P2 × P2 × P2)) : ℚ :=
  (ts.map (fun t => triArea2 t.1 t.2.1 t.2.2)).sum

/-- Membership in the convex hull of the three original vertices, by barycentric
coordinates. -/
def inHull (p0 p1 p2 q : P2) : Prop :=
  ∃ a b c : ℚ, 0 ≤ a ∧ 0 ≤ b ∧ 0 ≤ c ∧ a + b + c = 1 ∧
    q.1 = a * p0.1 + b * p1.1 + c * p2.1 ∧ q.2 = a * p0.2 + b * p1.2 + c * p2.2

/-- q is a point of the segment between two members of pts — the shape of every
point the splitting loop appends. -/
def IsSegCombo (pts : List P2) (q : P2) : Prop :=
  ∃ a ∈ pts, ∃ b ∈ pts, ∃ t : ℚ, 0 ≤ t ∧ t ≤ 1 ∧ q = segPoint a b t

/-- The index contract of scipy.spatial.Delaunay: every simplex refers to input
points. -/
def ValidTriangulation (tri : List P2 → List (ℕ × ℕ × ℕ)) : Prop :=
  ∀ pts, 3 ≤ pts.length → ∀ s ∈ tri pts,
    s.1 < pts.length ∧ s.2.1 < pts.length ∧ s.2.2 < pts.length

/- ============ 3D triangles, degeneracy, batch refinement, extraction ============ -/

/-- A 3D vector with rational coordinates. -/
abbrev V3 := ℚ × ℚ × ℚ

/-- Componentwise difference a - b. -/
def vsub3 (a b : V3) : V3 := (a.1 - b.1, a.2.1 - b.2.1, a.2.2 - b.2.2)

/-- np.cross. -/
def cross3 (a b : V3) : V3 :=
  (a.2.1 * b.2.2 - a.2.2 * b.2.1, a.2.2 * b.1 - a.1 * b.2.2,
    a.1 * b.2.1 - a.2.1 * b.1)

/-- np.dot on 3-vectors. -/
def dot3 (a b : V3) : ℚ := a.1 * b.1 + a.2.1 * b.2.1 + a.2.2 * b.2.2

/-- A 3D input triangle (v0, v1, v2). -/
abbrev Tri3 := V3 × V3 × V3

/-- project_triangle_2D divides by norm(v1 - v0) and by
norm(cross(v1 - v0, v2 - v0)); in exact arithmetic the second divisor vanishes
exactly when the cross product is the zero vector (zero area, i.e. collinear
vertices), which also covers v1 = v0. -/
def degenerateTri (t : Tri3) : Bool :=
  decide (cross3 (vsub3 t.2.1 t.1) (vsub3 t.2.2 t.1) = ((0 : ℚ), (0 : ℚ), (0 : ℚ)))

/-- subdivide_triangles over a batch.  The source has no exception handling: on a
degenerate triangle, project_triangle_2D divides by zero (NumPy yields nan
coordinates with a runtime warning) and the subsequent scipy Delaunay call
raises, so the loop aborts with no partial result — modelled as none.  On an all
non-degenerate batch every triangle is refined and the results concatenated; the
per-triangle refinement (projection, splitViaDelaunay and final triangulation,
modelled in 2D by subdivide2D) is abstracted here as refineOne. -/
def subdivideTriangles (refineOne : Tri3 → List Tri3) (ts : List Tri3) :
    Option (List Tri3) :=
  if ts.any degenerateTri then none else some ((ts.map refineOne).flatten)

/-- The extraction loop of the notebook: for a mesh with material kd, ke and N
triangles, it extends rho with [kd] * N and E with [ke] * N, so every patch of
the mesh carries the mesh's material unchanged. -/
def extractPatches {α : Type} (kd ke : V3) (tris : List α) : List (α × V3 × V3) :=
  tris.map (fun t => (t, kd, ke))

/- ===================== Form-factor engine (F computation cell) ===================== -/

/-- The geometric data the form-factor loop reads for a scene of n patches.
centroid, normal and area model scene_mesh.triangles_center, face_normals and
area_faces; rdist models np.linalg.norm(centroids[j] - centroids[i]) (the float
square root — theorems constrain it by hypotheses where needed); castRay models
the trimesh RayMeshIntersector: the distance, measured from the biased origin
centroids[i] + epsilon * direction, of the first scene hit of the ray toward j,
or none when nothing is hit; piv models np.pi; eps the epsilon derived from the
bounding-box diagonal. -/
structure FFScene (n : ℕ) where
  centroid : Fin n → V3
  normal : Fin n → V3
  area : Fin n → ℚ
  rdist : Fin n → Fin n → ℚ
  castRay : Fin n → Fin n → Option ℚ
  piv : ℚ
  eps : ℚ

/-- vecs_ij = centroids[j] - centroids[i]. -/
def FFScene.vecIJ {n : ℕ} (S : FFScene n) (i j : Fin n) : V3 :=
  vsub3 (S.centroid j) (S.centroid i)

/-- cos_theta_i = direction_ij . normal_i, with direction_ij = vec_ij / r. -/
def FFScene.cosI {n : ℕ} (S : FFScene n) (i j : Fin n) : ℚ :=
  dot3 (S.vecIJ i j) (S.normal i) / S.rdist i j

/-- cos_theta_j = -(direction_ij . normal_j). -/
def FFScene.cosJ {n : ℕ} (S : FFScene n) (i j : Fin n) : ℚ :=
  -(dot3 (S.vecIJ i j) (S.normal j)) / S.rdist i j

/-- The occlusion test: blocked iff the first hit of the biased ray lies at
distance strictly less than the centroid distance minus epsilon. -/
def FFScene.occluded {n : ℕ} (S : FFScene n) (i j : Fin n) : Bool :=
  match S.castRay i j with
  | some d => decide (d < S.rdist i j - S.eps)
  | none => false

/-- np.clip(x, 0, 1). -/
def clip01 (x : ℚ) : ℚ := max 0 (min x 1)

/-- The unclipped form-factor value
(cos_theta_i * cos_theta_j * areas[j]) / (pi * r^2). -/
def FFScene.ffRaw {n : ℕ} (S : FFScene n) (i j : Fin n) : ℚ :=
  S.cosI i j * S.cosJ i j * S.area j / (S.piv * S.rdist i j ^ 2)

/-- The computed coupling matrix F: the loop skips j = i (the diagonal stays at
its np.zeros value), leaves F[i,j] at 0 unless cos_theta_i > epsilon and
cos_theta_j > epsilon, leaves it at 0 when the visibility ray is blocked, and
otherwise stores np.clip of the form-factor value into [0, 1]. -/
def FFScene.Fmat {n : ℕ} (S : FFScene n) (i j : Fin n) : ℚ :=
  if j = i then 0
  else if S.cosI i j ≤ S.eps ∨ S.cosJ i j ≤ S.eps then 0
  else if S.occluded i j then 0
  else clip01 (S.ffRaw i j)

/- ===================== Concrete instances used by the witnesses ===================== -/

/-- A two-patch scene: unit-separated centroids facing each other, area 1/10,
no occluder, a rational stand-in for pi (its value is irrelevant to the claims
checked on it). -/
def ffDemo : FFScene 2 where
  centroid := fun i => if i = 0 then (0, 0, 0) else (1, 0, 0)
  normal := fun i => if i = 0 then (1, 0, 0) else (-1, 0, 0)
  area := fun _ => 1 / 10
  rdist := fun i j => if i = j then 0 else 1
  castRay := fun _ _ => none
  piv := 355 / 113
  eps := 1 / 1000

/-- A toy triangulation oracle for witnesses: always the single simplex
(0, 1, 2). -/
def toyTri : List P2 → List (ℕ × ℕ × ℕ) := fun _ => [(0, 1, 2)]

/-- The hull-area oracle matching toyTri: the area of the triangle on the first
three points. -/
def toyHull : List P2 → ℚ := fun pts =>
  triArea2 (pts.getD 0 (0, 0)) (pts.getD 1 (0, 0)) (pts.getD 2 (0, 0))

/-- A one-patch coupling matrix for the solver witnesses. -/
def demoF : Fin 1 → Fin 1 → ℚ := fun _ _ => 1 / 2

/-- One-patch single-channel reflectance. -/
def demoRho : RMat 1 1 := fun _ _ => 1 / 2

/-- One-patch single-channel emission. -/
def demoE : RMat 1 1 := fun _ _ => 1

/- ===================== Helper lemmas: solver ===================== -/

/-- The foldl over range k of the loop body equals the k-th iterate. -/
theorem foldl_range_radStep {N C : ℕ} (F : Fin N → Fin N → ℚ) (rho E : RMat N C) :
    ∀ k : ℕ, (List.range k).foldl (fun B _ => radStep F rho E B) (fun _ _ => 0)
      = iterB F rho E k := by
  intro k
  induction k with
  | zero => rfl
  | succ k ih => rw [List.range_succ, List.foldl_append, ih]; rfl

/-- The solver returns the toNat-of-budget iterate. -/
theorem radiositySolve_eq_iterB {N C : ℕ} (F : Fin N → Fin N → ℚ)
    (rho E : RMat N C) (n : ℤ) :
    radiositySolve F rho E n = iterB F rho E n.toNat :=
  foldl_range_radStep F rho E n.toNat

/-- All iterates are componentwise nonnegative when F, rho, E are. -/
theorem iterB_nonneg {N C : ℕ} (F : Fin N → Fin N → ℚ) (rho E : RMat N C)
    (hF : ∀ i j, 0 ≤ F i j) (hrho : ∀ i c, 0 ≤ rho i c)
    (hE : ∀ i c, 0 ≤ E i c) :
    ∀ k i c, 0 ≤ iterB F rho E k i c := by
  intro k
  induction k with
  | zero => intro i c; exact le_refl 0
  | succ k ih =>
    intro i c
    have hsum : 0 ≤ ∑ j, F i j * iterB F rho E k j c :=
      Finset.sum_nonneg (fun j _ => mul_nonneg (hF i j) (ih j c))
    have h := add_nonneg (hE i c) (mul_nonneg (hrho i c) hsum)
    simpa [iterB, radStep, incoming] using h

/- ===================== Claim C2 ===================== -/

/-- Claim C2: for every coupling matrix F, reflectance rho, emission E and
iteration budget n, the solver starts from B = 0 and performs exactly n updates
of the rule B = E + rho * (F @ B), terminating on reaching the iteration budget:
the returned B is the n-th iterate of the update rule from the zero state. -/
theorem solver_runs_budget_iterates {N C : ℕ} (F : Fin N → Fin N → ℚ)
    (rho E : RMat N C) (n : ℕ) :
    radiositySolve F rho E (n : ℤ) = iterB F rho E n ∧
    iterB F rho E 0 = (fun _ _ => 0) ∧
    ∀ k, iterB F rho E (k + 1) = radStep F rho E (iterB F rho E k) := by
  refine ⟨?_, rfl, fun k => rfl⟩
  rw [radiositySolve_eq_iterB, Int.toNat_natCast]

/- ===================== Claim C4 ===================== -/

/-- Claim C4: for componentwise nonnegative rho, E and F, every intermediate B
produced by the solver after each iteration, and the final returned B, is
componentwise nonnegative. -/
theorem solver_nonneg {N C : ℕ} (F : Fin N → Fin N → ℚ) (rho E : RMat N C)
    (hF : ∀ i j, 0 ≤ F i j) (hrho : ∀ i c, 0 ≤ rho i c)
    (hE : ∀ i c, 0 ≤ E i c) :
    (∀ k i c, 0 ≤ iterB F rho E k i c) ∧
    ∀ (n : ℤ) i c, 0 ≤ radiositySolve F rho E n i c := by
  refine ⟨iterB_nonneg F rho E hF hrho hE, fun n i c => ?_⟩
  rw [radiositySolve_eq_iterB]
  exact iterB_nonneg F rho E hF hrho hE _ i c

/-- Witness for C4 on a concrete one-patch scene. -/
theorem solver_nonneg_witness :
    0 ≤ iterB demoF demoRho demoE 2 0 0 ∧
    0 ≤ radiositySolve demoF demoRho demoE 3 0 0 :=
  ⟨(solver_nonneg demoF demoRho demoE (fun i j => by norm_num [demoF])
      (fun i c => by norm_num [demoRho]) (fun i c => by norm_num [demoE])).1 2 0 0,
   (solver_nonneg demoF demoRho demoE (fun i j => by norm_num [demoF])
      (fun i c => by norm_num [demoRho]) (fun i c => by norm_num [demoE])).2 3 0 0⟩

/- ===================== Claim C9 ===================== -/

/-- Claim C9: for nonnegative rho, E, F the solver's iterates from B = 0 are
componentwise monotonically non-decreasing, and the iterate after one step
equals E (the spec's alternative initialization). -/
theorem solver_monotone_from_zero {N C : ℕ} (F : Fin N → Fin N → ℚ)
    (rho E : RMat N C)
    (hF : ∀ i j, 0 ≤ F i j) (hrho : ∀ i c, 0 ≤ rho i c)
    (hE : ∀ i c, 0 ≤ E i c) :
    (∀ k i c, iterB F rho E k i c ≤ iterB F rho E (k + 1) i c) ∧
    ∀ i c, iterB F rho E 1 i c = E i c := by
  have hone : ∀ i c, iterB F rho E 1 i c = E i c := by
    intro i c
    simp [iterB, radStep, incoming]
  refine ⟨?_, hone⟩
  intro k
  induction k with
  | zero =>
    intro i c
    rw [hone i c]
    exact hE i c
  | succ k ih =>
    intro i c
    show radStep F rho E (iterB F rho E k) i c
        ≤ radStep F rho E (iterB F rho E (k + 1)) i c
    unfold radStep incoming
    have hsum : (∑ j, F i j * iterB F rho E k j c)
        ≤ ∑ j, F i j * iterB F rho E (k + 1) j c :=
      Finset.sum_le_sum (fun j _ => mul_le_mul_of_nonneg_left (ih j c) (hF i j))
    exact add_le_add_left (mul_le_mul_of_nonneg_left hsum (hrho i c)) _

/-- Witness for C9 on a concrete one-patch scene. -/
theorem solver_monotone_from_zero_witness :
    iterB demoF demoRho demoE 1 0 0 ≤ iterB demoF demoRho demoE 2 0 0 ∧
    iterB demoF demoRho demoE 1 0 0 = demoE 0 0 :=
  ⟨(solver_monotone_from_zero demoF demoRho demoE (fun i j => by norm_num [demoF])
      (fun i c => by norm_num [demoRho]) (fun i c => by norm_num [demoE])).1 1 0 0,
   (solver_monotone_from_zero demoF demoRho demoE (fun i j => by norm_num [demoF])
      (fun i c => by norm_num [demoRho]) (fun i c => by norm_num [demoE])).2 0 0⟩

/- ===================== Helper lemmas: refiner ===================== -/

/-- A getD lookup at a valid index is a member of the list. -/
theorem getD_mem_of_lt (l : List P2) (n : ℕ) (d : P2) (h : n < l.length) :
    l.getD n d ∈ l := by
  rw [List.getD_eq_getElem l d h]
  exact List.getElem_mem h

/-- Under the index contract, every collected edge refers to valid points. -/
theorem triEdges_valid {tri : List P2 → List (ℕ × ℕ × ℕ)}
    (hvalid : ValidTriangulation tri) (pts : List P2) (h3 : 3 ≤ pts.length) :
    ∀ e ∈ triEdges (tri pts), e.1 < pts.length ∧ e.2 < pts.length := by
  intro e he
  unfold triEdges at he
  rw [List.mem_dedup, List.mem_flatten] at he
  obtain ⟨l, hl, hel⟩ := he
  rw [List.mem_map] at hl
  obtain ⟨s, hs, rfl⟩ := hl
  obtain ⟨h1, h2, h3'⟩ := hvalid pts h3 s hs
  simp only [simplexEdges, List.mem_cons, List.not_mem_nil, or_false] at hel
  rcases hel with rfl | rfl | rfl
  · exact ⟨h1, h2⟩
  · exact ⟨h2, h3'⟩
  · exact ⟨h1, h3'⟩

/-- Every point appended along one edge is a segment combination of its two
endpoints. -/
theorem edgeNewPoints_combo (pts : List P2) (p1 p2 : P2) (m : ℚ)
    (h1 : p1 ∈ pts) (h2 : p2 ∈ pts) :
    ∀ q ∈ edgeNewPoints p1 p2 m, IsSegCombo pts q := by
  intro q hq
  unfold edgeNewPoints at hq
  rw [List.mem_map] at hq
  obtain ⟨piece, hpiece, rfl⟩ := hq
  have hpmem : piece ∈ List.range (nPieces (dist2 p1 p2) m) :=
    List.mem_of_mem_drop hpiece
  rw [List.mem_range] at hpmem
  refine ⟨p1, h1, p2, h2, (piece : ℚ) / (nPieces (dist2 p1 p2) m : ℚ), ?_, ?_, rfl⟩
  · exact div_nonneg (Nat.cast_nonneg _) (Nat.cast_nonneg _)
  · have hpos : (0 : ℚ) < (nPieces (dist2 p1 p2) m : ℚ) := by
      have : 0 < nPieces (dist2 p1 p2) m := lt_of_le_of_lt (Nat.zero_le piece) hpmem
      exact_mod_cast this
    rw [div_le_one hpos]
    exact_mod_cast hpmem.le

/-- Everything the edge scan accumulates is a segment combination of members of
the point list. -/
theorem foldl_splitStep_mem (pts : List P2) (m : ℚ) :
    ∀ (es : List (ℕ × ℕ)) (acc : List P2 × Bool),
      (∀ q ∈ acc.1, IsSegCombo pts q) →
      (∀ e ∈ es, e.1 < pts.length ∧ e.2 < pts.length) →
      ∀ q ∈ (es.foldl (splitStep pts m) acc).1, IsSegCombo pts q := by
  intro es
  induction es with
  | nil => intro acc hacc _ q hq; exact hacc q hq
  | cons e es ih =>
    intro acc hacc hval q hq
    rw [List.foldl_cons] at hq
    refine ih (splitStep pts m acc e) ?_
      (fun e' he' => hval e' (List.mem_cons_of_mem _ he')) q hq
    intro q' hq'
    by_cases hc : lengthExceeds
        (dist2 (pts.getD e.1 (0, 0)) (pts.getD e.2 (0, 0))) m = true
    · simp only [splitStep, hc, if_true, List.mem_append] at hq'
      rcases hq' with h | h
      · exact hacc q' h
      · have he := hval e (List.mem_cons_self _ _)
        exact edgeNewPoints_combo pts _ _ m (getD_mem_of_lt _ _ _ he.1)
          (getD_mem_of_lt _ _ _ he.2) q' h
    · simp only [splitStep, hc, if_false, Bool.false_eq_true] at hq'
      exact hacc q' hq'

/-- Segment combinations are monotone in the ambient point list. -/
theorem isSegCombo_mono {pts pts' : List P2} (h : ∀ x ∈ pts, x ∈ pts') {q : P2}
    (hq : IsSegCombo pts q) : IsSegCombo pts' q := by
  obtain ⟨a, ha, b, hb, t, ht0, ht1, rfl⟩ := hq
  exact ⟨a, h a ha, b, h b hb, t, ht0, ht1, rfl⟩

/-- A hull functional invariant under appending one segment combination is
invariant under appending a whole list of them. -/
theorem hull_append_combos (hull : List P2 → ℚ)
    (hext : ∀ pts q, 3 ≤ pts.length → IsSegCombo pts q →
      hull (pts ++ [q]) = hull pts) :
    ∀ (qs pts : List P2), 3 ≤ pts.length → (∀ q ∈ qs, IsSegCombo pts q) →
      hull (pts ++ qs) = hull pts := by
  intro qs
  induction qs with
  | nil => intro pts _ _; rw [List.append_nil]
  | cons q qs ih =>
    intro pts h3 hqs
    have hstep : pts ++ q :: qs = (pts ++ [q]) ++ qs := by simp
    rw [hstep]
    have h3' : 3 ≤ (pts ++ [q]).length := by
      rw [List.length_append]; omega
    have hmono : ∀ r ∈ qs, IsSegCombo (pts ++ [q]) r := fun r hr =>
      isSegCombo_mono (fun x hx => List.mem_append_left _ hx)
        (hqs r (List.mem_cons_of_mem _ hr))
    rw [ih (pts ++ [q]) h3' hmono]
    exact hext pts q h3 (hqs q (List.mem_cons_self _ _))

/-- Once the unfinished flag is set, the scan never resets it. -/
theorem foldl_splitStep_false (pts : List P2) (m : ℚ) :
    ∀ (es : List (ℕ × ℕ)) (acc : List P2 × Bool), acc.2 = false →
      (es.foldl (splitStep pts m) acc).2 = false := by
  intro es
  induction es with
  | nil => intro acc h; exact h
  | cons e es ih =>
    intro acc h
    rw [List.foldl_cons]
    apply ih
    unfold splitStep
    split
    · rfl
    · exact h

/-- If the scan ends with the finished flag, no scanned edge was too long. -/
theorem foldl_splitStep_true (pts : List P2) (m : ℚ) :
    ∀ (es : List (ℕ × ℕ)) (acc : List P2 × Bool),
      (es.foldl (splitStep pts m) acc).2 = true →
      ∀ e ∈ es, lengthExceeds
        (dist2 (pts.getD e.1 (0, 0)) (pts.getD e.2 (0, 0))) m = false := by
  intro es
  induction es with
  | nil => intro acc _ e he; exact absurd he (List.not_mem_nil e)
  | cons e es ih =>
    intro acc hres e' he'
    rw [List.foldl_cons] at hres
    by_cases hc : lengthExceeds
        (dist2 (pts.getD e.1 (0, 0)) (pts.getD e.2 (0, 0))) m = true
    · have hstep : (splitStep pts m acc e).2 = false := by
        unfold splitStep
        rw [if_pos hc]
      have := foldl_splitStep_false pts m es _ hstep
      rw [hres] at this
      cases this
    · rcases List.mem_cons.mp he' with rfl | hmem
      · exact Bool.eq_false_iff.mpr hc
      · exact ih _ hres e' hmem

/-- When a pass reports finished, every edge of its triangulation satisfies the
length bound. -/
theorem splitPass_finished_no_long (tri : List P2 → List (ℕ × ℕ × ℕ))
    (pts : List P2) (m : ℚ) (h : (splitPass tri pts m).2 = true) :
    ∀ e ∈ triEdges (tri pts), lengthExceeds
      (dist2 (pts.getD e.1 (0, 0)) (pts.getD e.2 (0, 0))) m = false :=
  foldl_splitStep_true pts m _ _ h

/-- A failed length test means the squared length is within the squared bound. -/
theorem lengthExceeds_false_le {d2 m : ℚ} (h : lengthExceeds d2 m = false) :
    d2 ≤ m ^ 2 := by
  unfold lengthExceeds at h
  simp only [Bool.or_eq_false_iff, decide_eq_false_iff_not, not_lt] at h
  exact h.2

/-- The run invariant of splitViaDelaunay: the point list only grows (the input
is a prefix of the output), any property closed under segment interpolation
propagates to all points, any hull functional invariant under appending segment
combinations is preserved, and on success the final pass is finished. -/
theorem splitViaDelaunay_invariant (tri : List P2 → List (ℕ × ℕ × ℕ)) (m : ℚ)
    (hull : List P2 → ℚ) (P : P2 → Prop)
    (hvalid : ValidTriangulation tri)
    (hP : ∀ a b t, P a → P b → 0 ≤ t → t ≤ 1 → P (segPoint a b t))
    (hext : ∀ pts q, 3 ≤ pts.length → IsSegCombo pts q →
      hull (pts ++ [q]) = hull pts) :
    ∀ (fuel : ℕ) (pts out : List P2), 3 ≤ pts.length → (∀ q ∈ pts, P q) →
      splitViaDelaunay tri fuel pts m = some out →
      (∃ rest, out = pts ++ rest) ∧ (∀ q ∈ out, P q) ∧ hull out = hull pts ∧
      (splitPass tri out m).2 = true := by
  intro fuel
  induction fuel with
  | zero =>
    intro pts out _ _ h
    exact absurd h (by simp [splitViaDelaunay])
  | succ fuel ih =>
    intro pts out h3 hpts hout
    rw [splitViaDelaunay] at hout
    by_cases hfin : (splitPass tri pts m).2 = true
    · rw [if_pos hfin] at hout
      cases hout
      exact ⟨⟨[], (List.append_nil pts).symm⟩, hpts, rfl, hfin⟩
    · rw [if_neg hfin] at hout
      have hcombo : ∀ q ∈ (splitPass tri pts m).1, IsSegCombo pts q :=
        foldl_splitStep_mem pts m _ _
          (fun q hq => absurd hq (List.not_mem_nil q))
          (triEdges_valid hvalid pts h3)
      have hnewP : ∀ q ∈ pts ++ (splitPass tri pts m).1, P q := by
        intro q hq
        rcases List.mem_append.mp hq with h | h
        · exact hpts q h
        · obtain ⟨a, ha, b, hb, t, ht0, ht1, rfl⟩ := hcombo q h
          exact hP a b t (hpts a ha) (hpts b hb) ht0 ht1
      have h3' : 3 ≤ (pts ++ (splitPass tri pts m).1).length := by
        rw [List.length_append]; omega
      obtain ⟨⟨rest, hrest⟩, hPout, hhull, hfin'⟩ := ih _ out h3' hnewP hout
      refine ⟨⟨(splitPass tri pts m).1 ++ rest, by
        rw [hrest, List.append_assoc]⟩, hPout, ?_, hfin'⟩
      rw [hhull]
      exact hull_append_combos hull hext _ pts h3 hcombo

/-- The first vertex is in the hull. -/
theorem inHull_vertex0 (p0 p1 p2 : P2) : inHull p0 p1 p2 p0 :=
  ⟨1, 0, 0, le_refl 0 |>.trans zero_le_one, le_refl 0, le_refl 0, by ring,
    by ring, by ring⟩

/-- The second vertex is in the hull. -/
theorem inHull_vertex1 (p0 p1 p2 : P2) : inHull p0 p1 p2 p1 :=
  ⟨0, 1, 0, le_refl 0, le_refl 0 |>.trans zero_le_one, le_refl 0, by ring,
    by ring, by ring⟩

/-- The third vertex is in the hull. -/
theorem inHull_vertex2 (p0 p1 p2 : P2) : inHull p0 p1 p2 p2 :=
  ⟨0, 0, 1, le_refl 0, le_refl 0, le_refl 0 |>.trans zero_le_one, by ring,
    by ring, by ring⟩

/-- The hull is closed under segment interpolation. -/
theorem inHull_segPoint (p0 p1 p2 a b : P2) (t : ℚ)
    (ha : inHull p0 p1 p2 a) (hb : inHull p0 p1 p2 b)
    (ht0 : 0 ≤ t) (ht1 : t ≤ 1) : inHull p0 p1 p2 (segPoint a b t) := by
  obtain ⟨a1, a2, a3, ha1, ha2, ha3, hasum, hax, hay⟩ := ha
  obtain ⟨b1, b2, b3, hb1, hb2, hb3, hbsum, hbx, hby⟩ := hb
  have h1t : 0 ≤ 1 - t := by linarith
  refine ⟨(1 - t) * a1 + t * b1, (1 - t) * a2 + t * b2, (1 - t) * a3 + t * b3,
    add_nonneg (mul_nonneg h1t ha1) (mul_nonneg ht0 hb1),
    add_nonneg (mul_nonneg h1t ha2) (mul_nonneg ht0 hb2),
    add_nonneg (mul_nonneg h1t ha3) (mul_nonneg ht0 hb3), ?_, ?_, ?_⟩
  · linear_combination (1 - t) * hasum + t * hbsum
  · show a.1 + t * (b.1 - a.1) = _
    linear_combination (1 - t) * hax + t * hbx
  · show a.2 + t * (b.2 - a.2) = _
    linear_combination (1 - t) * hay + t * hby

/- ===================== Claim C10 ===================== -/

/-- Claim C10: splitViaDelaunay only appends to its point list — the three
original projected vertices remain the first three entries — and every appended
point is a convex combination of two existing points, so every point of the
final list lies in the convex hull of the original triangle.  The triangulation
oracle is only assumed to return valid indices. -/
theorem splitViaDelaunay_append_only_hull (tri : List P2 → List (ℕ × ℕ × ℕ))
    (p0 p1 p2 : P2) (m : ℚ) (fuel : ℕ) (out : List P2)
    (hvalid : ValidTriangulation tri)
    (hout : splitViaDelaunay tri fuel [p0, p1, p2] m = some out) :
    List.take 3 out = [p0, p1, p2] ∧ ∀ q ∈ out, inHull p0 p1 p2 q := by
  have hinit : ∀ q ∈ [p0, p1, p2], inHull p0 p1 p2 q := by
    intro q hq
    simp only [List.mem_cons, List.not_mem_nil, or_false] at hq
    rcases hq with rfl | rfl | rfl
    · exact inHull_vertex0 _ _ _
    · exact inHull_vertex1 _ _ _
    · exact inHull_vertex2 _ _ _
  obtain ⟨⟨rest, hrest⟩, hPout, _, _⟩ :=
    splitViaDelaunay_invariant tri m (fun _ => 0) (inHull p0 p1 p2) hvalid
      (fun a b t ha hb ht0 ht1 => inHull_segPoint p0 p1 p2 a b t ha hb ht0 ht1)
      (fun _ _ _ _ => rfl) fuel [p0, p1, p2] out (by simp) hinit hout
  refine ⟨?_, hPout⟩
  rw [hrest, show (3 : ℕ) = ([p0, p1, p2] : List P2).length from rfl,
    List.take_left]

/- ===================== Toy oracle facts used by the refiner witnesses ===================== -/

/-- toyTri returns valid indices on any list of at least three points. -/
theorem toyTri_valid : ValidTriangulation toyTri := by
  intro pts h3 s hs
  simp only [toyTri, List.mem_cons, List.not_mem_nil, or_false] at hs
  subst hs
  refine ⟨?_, ?_, ?_⟩ <;> simp <;> omega

/-- toyHull agrees with the area of the toyTri triangulation. -/
theorem toyTri_area (pts : List P2) :
    areaSum ((toyTri pts).map (toTriangle pts)) = toyHull pts := by
  simp [toyTri, toTriangle, areaSum, toyHull]

/-- toyHull ignores points appended past the first three. -/
theorem toyHull_ext (pts : List P2) (q : P2) (h3 : 3 ≤ pts.length) :
    toyHull (pts ++ [q]) = toyHull pts := by
  unfold toyHull
  rw [List.getD_append _ _ _ _ (by omega), List.getD_append _ _ _ _ (by omega),
    List.getD_append _ _ _ _ (by omega)]

/-- The concrete witness run: a right triangle whose edges already satisfy the
bound, so the first pass finishes immediately. -/
theorem toy_splitPass_finished :
    splitPass toyTri [((0 : ℚ), (0 : ℚ)), (1, 0), (0, 1)] 2 = ([], true) := by
  have hedges : triEdges (toyTri [((0 : ℚ), (0 : ℚ)), (1, 0), (0, 1)]) =
      [(0, 1), (1, 2), (0, 2)] := by decide
  unfold splitPass
  rw [hedges]
  norm_num [splitStep, lengthExceeds, dist2, List.getD]

/-- The witness run of splitViaDelaunay: one pass suffices. -/
theorem toy_split_result :
    splitViaDelaunay toyTri 1 [((0 : ℚ), (0 : ℚ)), (1, 0), (0, 1)] 2 =
      some [((0 : ℚ), (0 : ℚ)), (1, 0), (0, 1)] := by
  rw [splitViaDelaunay, toy_splitPass_finished]
  rfl

/-- Witness for C10: the run keeps the three vertices in place and (1, 0) is in
the hull. -/
theorem splitViaDelaunay_append_only_hull_witness :
    List.take 3 [((0 : ℚ), (0 : ℚ)), (1, 0), (0, 1)] =
      [((0 : ℚ), (0 : ℚ)), (1, 0), (0, 1)] ∧
    inHull ((0 : ℚ), (0 : ℚ)) (1, 0) (0, 1) (1, 0) := by
  obtain ⟨h1, h2⟩ := splitViaDelaunay_append_only_hull toyTri (0, 0) (1, 0)
    (0, 1) 2 1 [((0 : ℚ), (0 : ℚ)), (1, 0), (0, 1)] toyTri_valid
    toy_split_result
  exact ⟨h1, h2 (1, 0) (by simp)⟩

/- ===================== Claim C3 ===================== -/

/-- Claim C3: for maxLength > 0, on any successful run of the refiner every edge
of every output triangle satisfies the length bound (stated on squared lengths,
exactly equivalent for a positive bound), the total output area equals the input
triangle's area, and the extraction step hands every output triangle the parent
mesh's reflectance and emission unchanged.  The external Delaunay oracle is
assumed to return valid indices and to triangulate exactly the convex hull of
its input (htri and hext express this through the hull-area functional; hbase
says the hull of the three input vertices has the input triangle's area). -/
theorem refine_edge_bound_and_area (tri : List P2 → List (ℕ × ℕ × ℕ))
    (hull : List P2 → ℚ) (p0 p1 p2 : P2) (m : ℚ) (fuel : ℕ)
    (ts : List (P2 × P2 × P2))
    (hm : 0 < m)
    (hvalid : ValidTriangulation tri)
    (htri : ∀ pts, 3 ≤ pts.length →
      areaSum ((tri pts).map (toTriangle pts)) = hull pts)
    (hext : ∀ pts q, 3 ≤ pts.length → IsSegCombo pts q →
      hull (pts ++ [q]) = hull pts)
    (hbase : hull [p0, p1, p2] = triArea2 p0 p1 p2)
    (hts : subdivide2D tri fuel p0 p1 p2 m = some ts) :
    (∀ t ∈ ts, dist2 t.1 t.2.1 ≤ m ^ 2 ∧ dist2 t.2.1 t.2.2 ≤ m ^ 2 ∧
      dist2 t.1 t.2.2 ≤ m ^ 2) ∧
    areaSum ts = triArea2 p0 p1 p2 ∧
    ∀ (kd ke : V3) (p : (P2 × P2 × P2) × V3 × V3),
      p ∈ extractPatches kd ke ts → p.2.1 = kd ∧ p.2.2 = ke := by
  unfold subdivide2D at hts
  obtain ⟨ptsF, hsplit, hmap⟩ := Option.map_eq_some'.mp hts
  have hts' : ts = (tri ptsF).map (toTriangle ptsF) := hmap.symm
  subst hts'
  obtain ⟨⟨rest, hrest⟩, _, hhull, hfin⟩ :=
    splitViaDelaunay_invariant tri m hull (fun _ => True) hvalid
      (fun _ _ _ _ _ _ _ => trivial) hext fuel [p0, p1, p2] ptsF (by simp)
      (fun _ _ => trivial) hsplit
  have h3F : 3 ≤ ptsF.length := by
    rw [hrest, List.length_append]
    simp
  refine ⟨?_, ?_, ?_⟩
  · intro t ht
    rw [List.mem_map] at ht
    obtain ⟨s, hs, rfl⟩ := ht
    have hedge : ∀ e ∈ simplexEdges s, lengthExceeds
        (dist2 (ptsF.getD e.1 (0, 0)) (ptsF.getD e.2 (0, 0))) m = false := by
      intro e he
      apply splitPass_finished_no_long tri ptsF m hfin
      unfold triEdges
      rw [List.mem_dedup, List.mem_flatten]
      exact ⟨simplexEdges s, List.mem_map_of_mem _ hs, he⟩
    refine ⟨?_, ?_, ?_⟩
    · exact lengthExceeds_false_le (hedge (s.1, s.2.1) (by simp [simplexEdges]))
    · exact lengthExceeds_false_le (hedge (s.2.1, s.2.2) (by simp [simplexEdges]))
    · exact lengthExceeds_false_le (hedge (s.1, s.2.2) (by simp [simplexEdges]))
  · rw [htri ptsF h3F, hhull, hbase]
  · intro kd ke p hp
    unfold extractPatches at hp
    rw [List.mem_map] at hp
    obtain ⟨t, _, rfl⟩ := hp
    exact ⟨rfl, rfl⟩

/-- Witness for C3: the toy run refines the right triangle into itself; the
hypotenuse edge satisfies the squared bound and the area is preserved. -/
theorem refine_edge_bound_and_area_witness :
    dist2 ((0 : ℚ), (0 : ℚ)) (1, 0) ≤ (2 : ℚ) ^ 2 ∧
    areaSum [(((0 : ℚ), (0 : ℚ)), ((1 : ℚ), (0 : ℚ)), ((0 : ℚ), (1 : ℚ)))] =
      triArea2 (0, 0) (1, 0) (0, 1) := by
  have hts : subdivide2D toyTri 1 (0, 0) (1, 0) (0, 1) 2 =
      some [(((0 : ℚ), (0 : ℚ)), ((1 : ℚ), (0 : ℚ)), ((0 : ℚ), (1 : ℚ)))] := by
    unfold subdivide2D
    rw [toy_split_result]
    rfl
  obtain ⟨h1, h2, _⟩ := refine_edge_bound_and_area toyTri toyHull (0, 0) (1, 0)
    (0, 1) 2 1 [(((0 : ℚ), (0 : ℚ)), ((1 : ℚ), (0 : ℚ)), ((0 : ℚ), (1 : ℚ)))]
    (by norm_num) toyTri_valid (fun pts _ => toyTri_area pts)
    (fun pts q h3 _ => toyHull_ext pts q h3) (by norm_num [toyHull, List.getD])
    hts
  exact ⟨(h1 _ (List.mem_cons_self _ _)).1, h2⟩

/- ===================== Claim C7 ===================== -/

/-- With a negative bound nPieces is 0 by definition (matching the empty
range(1, ceil(length / maxLength)) of the source). -/
theorem nPieces_neg {d2 m : ℚ} (hm : m < 0) : nPieces d2 m = 0 := by
  unfold nPieces
  rw [dif_neg (not_lt.mpr hm.le)]

/-- With a negative bound no points are appended along an edge. -/
theorem edgeNewPoints_neg (p1 p2 : P2) {m : ℚ} (hm : m < 0) :
    edgeNewPoints p1 p2 m = [] := by
  simp [edgeNewPoints, nPieces_neg hm]

/-- With a negative bound every edge counts as too long (the float length is
nonnegative). -/
theorem lengthExceeds_neg (d2 : ℚ) {m : ℚ} (hm : m < 0) :
    lengthExceeds d2 m = true := by
  simp [lengthExceeds, hm]

/-- With a negative bound the scan appends nothing and reports unfinished as
soon as there is any edge. -/
theorem foldl_splitStep_neg (pts : List P2) {m : ℚ} (hm : m < 0) :
    ∀ (es : List (ℕ × ℕ)) (b : Bool),
      es.foldl (splitStep pts m) ([], b) = ([], b && es.isEmpty) := by
  intro es
  induction es with
  | nil => intro b; simp
  | cons e es ih =>
    intro b
    rw [List.foldl_cons]
    have hstep : splitStep pts m ([], b) e = ([], false) := by
      unfold splitStep
      rw [if_pos (lengthExceeds_neg _ hm)]
      simp [edgeNewPoints_neg _ _ hm]
    rw [hstep, ih false]
    simp

/-- With a negative bound a pass over a nonempty triangulation is unfinished
and appends nothing. -/
theorem splitPass_neg (tri : List P2 → List (ℕ × ℕ × ℕ)) (pts : List P2)
    {m : ℚ} (hm : m < 0) (hne : tri pts ≠ []) :
    splitPass tri pts m = ([], false) := by
  unfold splitPass
  rw [foldl_splitStep_neg pts hm _ true]
  have hne' : triEdges (tri pts) ≠ [] := by
    obtain ⟨s, hsmem⟩ := List.exists_mem_of_ne_nil _ hne
    have hmem : (s.1, s.2.1) ∈ triEdges (tri pts) := by
      unfold triEdges
      rw [List.mem_dedup, List.mem_flatten]
      exact ⟨simplexEdges s, List.mem_map_of_mem _ hsmem, by simp [simplexEdges]⟩
    exact List.ne_nil_of_mem hmem
  have : (triEdges (tri pts)).isEmpty = false := by
    simpa [List.isEmpty_iff] using hne'
  rw [this]
  simp

/-- With a negative bound the recursion never reaches its fixed point: no fuel
makes it return. -/
theorem splitViaDelaunay_neg (tri : List P2 → List (ℕ × ℕ × ℕ)) (pts : List P2)
    {m : ℚ} (hm : m < 0) (hne : tri pts ≠ []) :
    ∀ fuel, splitViaDelaunay tri fuel pts m = none := by
  intro fuel
  induction fuel with
  | zero => rfl
  | succ fuel ih =>
    rw [splitViaDelaunay, splitPass_neg tri pts hm hne]
    simpa using ih

/-- Claim C7 counterexample: with the non-positive iteration budget -3 the
solver does not fail fast with an error — the loop body never runs (range of a
non-positive int is empty) and the initial all-zero radiosity state is
returned as the result. -/
theorem no_failFast_counterexample :
    radiositySolve (fun _ _ => (1 : ℚ)) (fun _ _ => (1 : ℚ))
      (fun _ _ => (1 : ℚ)) (-3) = (fun (_ : Fin 1) (_ : Fin 1) => (0 : ℚ)) := rfl

/-- Claim C7 amended: the code performs no configuration validation at all.  A
non-positive iteration budget makes the solver silently return the initial
B = 0 after zero updates instead of raising; a negative maxLength makes
splitViaDelaunay recurse forever (each pass reports unfinished and appends no
point) instead of failing fast; and the form-factor epsilon is derived from the
scene bounding box, never checked. -/
theorem no_validation_behavior :
    (∀ (N C : ℕ) (F : Fin N → Fin N → ℚ) (rho E : RMat N C) (n : ℤ), n ≤ 0 →
      radiositySolve F rho E n = fun _ _ => 0) ∧
    ∀ (tri : List P2 → List (ℕ × ℕ × ℕ)) (pts : List P2) (m : ℚ) (fuel : ℕ),
      m < 0 → tri pts ≠ [] → splitViaDelaunay tri fuel pts m = none := by
  constructor
  · intro N C F rho E n hn
    unfold radiositySolve
    rw [Int.toNat_of_nonpos hn]
    rfl
  · intro tri pts m fuel hm hne
    exact splitViaDelaunay_neg tri pts hm hne fuel

/-- Witness for the amended C7 on concrete inputs. -/
theorem no_validation_behavior_witness :
    radiositySolve (fun _ _ => (1 : ℚ)) (fun _ _ => (1 : ℚ))
      (fun _ _ => (1 : ℚ)) (-2) = (fun (_ : Fin 1) (_ : Fin 1) => (0 : ℚ)) ∧
    splitViaDelaunay toyTri 5 [((0 : ℚ), (0 : ℚ)), (1, 0), (0, 1)] (-1) = none :=
  ⟨no_validation_behavior.1 1 1 _ _ _ (-2) (by norm_num),
   no_validation_behavior.2 toyTri _ (-1) 5 (by norm_num) (by simp [toyTri])⟩

/- ===================== Claim C8 ===================== -/

/-- Claim C8 counterexample: a batch holding a good triangle and the collinear
triangle (0,0,0), (1,0,0), (2,0,0) makes subdivide_triangles abort with no
result: the degenerate patch is not excluded and the remaining triangle is not
processed. -/
theorem degenerate_aborts_counterexample :
    degenerateTri (((0 : ℚ), (0 : ℚ), (0 : ℚ)), ((1 : ℚ), (0 : ℚ), (0 : ℚ)),
      ((2 : ℚ), (0 : ℚ), (0 : ℚ))) = true ∧
    subdivideTriangles (fun t => [t])
      [(((0 : ℚ), (0 : ℚ), (0 : ℚ)), ((1 : ℚ), (0 : ℚ), (0 : ℚ)),
        ((0 : ℚ), (1 : ℚ), (0 : ℚ))),
       (((0 : ℚ), (0 : ℚ), (0 : ℚ)), ((1 : ℚ), (0 : ℚ), (0 : ℚ)),
        ((2 : ℚ), (0 : ℚ), (0 : ℚ)))] = none := by
  have hdeg : degenerateTri (((0 : ℚ), (0 : ℚ), (0 : ℚ)),
      ((1 : ℚ), (0 : ℚ), (0 : ℚ)), ((2 : ℚ), (0 : ℚ), (0 : ℚ))) = true := by
    simp only [degenerateTri, cross3, vsub3, decide_eq_true_eq, Prod.mk.injEq]
    norm_num
  refine ⟨hdeg, ?_⟩
  unfold subdivideTriangles
  rw [if_pos]
  rw [List.any_eq_true]
  exact ⟨_, by simp, hdeg⟩

/-- Claim C8 amended: subdivide_triangles does not recover from degenerate
geometry.  If any triangle of the batch is degenerate (zero area / collinear,
the exact condition under which project_triangle_2D divides by zero and the
Delaunay step fails), the whole computation aborts with no partial result —
no per-patch exclusion, no warning; only an all non-degenerate batch is
refined, each triangle independently with the results concatenated. -/
theorem degenerate_aborts_batch (refineOne : Tri3 → List Tri3)
    (ts : List Tri3) :
    ((∃ t ∈ ts, degenerateTri t = true) →
      subdivideTriangles refineOne ts = none) ∧
    ((∀ t ∈ ts, degenerateTri t = false) →
      subdivideTriangles refineOne ts = some ((ts.map refineOne).flatten)) := by
  constructor
  · rintro ⟨t, ht, hdeg⟩
    unfold subdivideTriangles
    rw [if_pos (List.any_eq_true.mpr ⟨t, ht, hdeg⟩)]
  · intro h
    unfold subdivideTriangles
    rw [if_neg]
    intro hc
    obtain ⟨t, ht, hdeg⟩ := List.any_eq_true.mp hc
    rw [h t ht] at hdeg
    cases hdeg

/-- Witness for the amended C8: a single collinear triangle aborts the batch. -/
theorem degenerate_aborts_batch_witness :
    subdivideTriangles (fun t => [t])
      [(((0 : ℚ), (0 : ℚ), (0 : ℚ)), ((3 : ℚ), (0 : ℚ), (0 : ℚ)),
        ((5 : ℚ), (0 : ℚ), (0 : ℚ)))] = none :=
  (degenerate_aborts_batch _ _).1 ⟨_, List.mem_cons_self _ _, by
    simp only [degenerateTri, cross3, vsub3, decide_eq_true_eq, Prod.mk.injEq]
    norm_num⟩

/- ===================== Claims C1 and C5 ===================== -/

/-- np.clip into the unit interval is nonnegative. -/
theorem clip01_nonneg (x : ℚ) : 0 ≤ clip01 x := le_max_left 0 _

/-- np.clip into the unit interval is at most one. -/
theorem clip01_le_one (x : ℚ) : clip01 x ≤ 1 :=
  max_le zero_le_one (min_le_right x 1)

/-- np.clip is the identity on values already inside the unit interval. -/
theorem clip01_eq_self {x : ℚ} (h0 : 0 ≤ x) (h1 : x ≤ 1) : clip01 x = x := by
  unfold clip01
  rw [min_eq_left h1, max_eq_right h0]

/-- Claim C1: the assembled coupling matrix has zero diagonal (the loop skips
j = i), is zero whenever the back-face test fails (a cosine at most epsilon) or
the visibility ray reports a hit closer than r - epsilon, and otherwise holds
the clipped point-to-patch value; consequently each entry lies in the unit
interval. -/
theorem formFactor_matrix_spec {n : ℕ} (S : FFScene n) (i j : Fin n) :
    S.Fmat i i = 0 ∧
    (S.cosI i j ≤ S.eps ∨ S.cosJ i j ≤ S.eps → S.Fmat i j = 0) ∧
    (S.occluded i j = true → S.Fmat i j = 0) ∧
    (j ≠ i → ¬(S.cosI i j ≤ S.eps ∨ S.cosJ i j ≤ S.eps) →
      S.occluded i j = false → S.Fmat i j = clip01 (S.ffRaw i j)) ∧
    0 ≤ S.Fmat i j ∧ S.Fmat i j ≤ 1 := by
  refine ⟨?_, ?_, ?_, ?_, ?_⟩
  · unfold FFScene.Fmat
    rw [if_pos rfl]
  · intro h
    unfold FFScene.Fmat
    by_cases hji : j = i
    · rw [if_pos hji]
    · rw [if_neg hji, if_pos h]
  · intro h
    unfold FFScene.Fmat
    by_cases hji : j = i
    · rw [if_pos hji]
    · by_cases hbf : S.cosI i j ≤ S.eps ∨ S.cosJ i j ≤ S.eps
      · rw [if_neg hji, if_pos hbf]
      · rw [if_neg hji, if_neg hbf, if_pos h]
  · intro hji hbf hocc
    unfold FFScene.Fmat
    rw [if_neg hji, if_neg hbf, if_neg (by simp [hocc])]
  · unfold FFScene.Fmat
    split_ifs
    · exact ⟨le_refl 0, zero_le_one⟩
    · exact ⟨le_refl 0, zero_le_one⟩
    · exact ⟨le_refl 0, zero_le_one⟩
    · exact ⟨clip01_nonneg _, clip01_le_one _⟩

/-- Witness for C1 on the concrete two-patch scene: the (0, 1) entry takes the
clipped value and lies in the unit interval. -/
theorem formFactor_matrix_spec_witness :
    ffDemo.Fmat 0 1 = clip01 (ffDemo.ffRaw 0 1) ∧
    0 ≤ ffDemo.Fmat 0 1 ∧ ffDemo.Fmat 0 1 ≤ 1 :=
  ⟨(formFactor_matrix_spec ffDemo 0 1).2.2.2.1 (by decide)
      (by norm_num [FFScene.cosI, FFScene.cosJ, FFScene.vecIJ, dot3, vsub3,
        ffDemo])
      (by simp [FFScene.occluded, ffDemo]),
   (formFactor_matrix_spec ffDemo 0 1).2.2.2.2⟩

/-- The float norm is symmetric in the pair, so the source's cos_theta_i for
the reversed pair equals cos_theta_j for the original pair: the direction flips
sign and so does the dotted normal term. -/
theorem cosI_swap {n : ℕ} (S : FFScene n) (i j : Fin n)
    (hsym : S.rdist i j = S.rdist j i) : S.cosI j i = S.cosJ i j := by
  unfold FFScene.cosI FFScene.cosJ FFScene.vecIJ
  rw [← hsym]
  have hnum : dot3 (vsub3 (S.centroid i) (S.centroid j)) (S.normal j)
      = -dot3 (vsub3 (S.centroid j) (S.centroid i)) (S.normal j) := by
    unfold dot3 vsub3
    ring
  rw [hnum]

/-- Companion to cosI_swap: the reversed pair's cos_theta_j equals the original
cos_theta_i. -/
theorem cosJ_swap {n : ℕ} (S : FFScene n) (i j : Fin n)
    (hsym : S.rdist i j = S.rdist j i) : S.cosJ j i = S.cosI i j := by
  unfold FFScene.cosI FFScene.cosJ FFScene.vecIJ
  rw [← hsym]
  have hnum : -dot3 (vsub3 (S.centroid i) (S.centroid j)) (S.normal i)
      = dot3 (vsub3 (S.centroid j) (S.centroid i)) (S.normal i) := by
    unfold dot3 vsub3
    ring
  rw [hnum]

/-- Claim C5: reciprocity of the computed coupling matrix.  When the pair
passes the back-face test in both directions, neither direction is occluded,
and neither raw value is clipped at 1, the two entries satisfy
F[i][j] * area(i) = F[j][i] * area(j) exactly (the centroid distance is
symmetric in the pair, which the float norm satisfies and hsym records). -/
theorem formFactor_reciprocity {n : ℕ} (S : FFScene n) (i j : Fin n)
    (hij : i ≠ j)
    (hsym : S.rdist i j = S.rdist j i)
    (hr : 0 < S.rdist i j) (hpi : 0 < S.piv)
    (hai : 0 ≤ S.area i) (haj : 0 ≤ S.area j) (heps : 0 ≤ S.eps)
    (hfi : S.eps < S.cosI i j) (hfj : S.eps < S.cosJ i j)
    (hocc1 : S.occluded i j = false) (hocc2 : S.occluded j i = false)
    (hcl1 : S.ffRaw i j ≤ 1) (hcl2 : S.ffRaw j i ≤ 1) :
    S.Fmat i j * S.area i = S.Fmat j i * S.area j := by
  have hci : 0 < S.cosI i j := lt_of_le_of_lt heps hfi
  have hcj : 0 < S.cosJ i j := lt_of_le_of_lt heps hfj
  have hden : 0 < S.piv * S.rdist i j ^ 2 := mul_pos hpi (pow_pos hr 2)
  have hswapI := cosI_swap S i j hsym
  have hswapJ := cosJ_swap S i j hsym
  have hraw1 : 0 ≤ S.ffRaw i j := by
    unfold FFScene.ffRaw
    exact div_nonneg (mul_nonneg (mul_nonneg hci.le hcj.le) haj) hden.le
  have hraw2 : 0 ≤ S.ffRaw j i := by
    unfold FFScene.ffRaw
    rw [hswapI, hswapJ, ← hsym]
    exact div_nonneg (mul_nonneg (mul_nonneg hcj.le hci.le) hai) hden.le
  have h1 : S.Fmat i j = S.ffRaw i j := by
    unfold FFScene.Fmat
    rw [if_neg (Ne.symm hij),
      if_neg (not_or.mpr ⟨not_le.mpr hfi, not_le.mpr hfj⟩),
      if_neg (by simp [hocc1]), clip01_eq_self hraw1 hcl1]
  have h2 : S.Fmat j i = S.ffRaw j i := by
    unfold FFScene.Fmat
    rw [if_neg hij,
      if_neg (not_or.mpr ⟨not_le.mpr (by rw [hswapI]; exact hfj),
        not_le.mpr (by rw [hswapJ]; exact hfi)⟩),
      if_neg (by simp [hocc2]), clip01_eq_self hraw2 hcl2]
  rw [h1, h2]
  unfold FFScene.ffRaw
  rw [hswapI, hswapJ, ← hsym]
  field_simp
  ring

/-- Witness for C5 on the concrete two-patch scene. -/
theorem formFactor_reciprocity_witness :
    ffDemo.Fmat 0 1 * ffDemo.area 0 = ffDemo.Fmat 1 0 * ffDemo.area 1 :=
  formFactor_reciprocity ffDemo 0 1 (by decide)
    (by simp [ffDemo]) (by norm_num [ffDemo]) (by norm_num [ffDemo])
    (by norm_num [ffDemo]) (by norm_num [ffDemo]) (by norm_num [ffDemo])
    (by norm_num [FFScene.cosI, FFScene.vecIJ, dot3, vsub3, ffDemo])
    (by norm_num [FFScene.cosJ, FFScene.vecIJ, dot3, vsub3, ffDemo])
    (by simp [FFScene.occluded, ffDemo]) (by simp [FFScene.occluded, ffDemo])
    (by norm_num [FFScene.ffRaw, FFScene.cosI, FFScene.cosJ, FFScene.vecIJ,
      dot3, vsub3, ffDemo])
    (by norm_num [FFScene.ffRaw, FFScene.cosI, FFScene.cosJ, FFScene.vecIJ,
      dot3, vsub3, ffDemo])
